import Mathlib

/-!
Verification development for the calendar analyzer script (`analyze.py`).

The script is shallowly embedded as follows.

* The rule mini-grammar built with `pyparsing` in `_parse_regexes`
  (lines 49-59 of the source) is embedded as the functional parser
  `parseRule`, including the whitespace skipping that `pyparsing`
  performs before each grammar element (its default whitespace
  characters are space, tab and newline), the character set of
  `pp.Word(pp.printables + chars, excludeChars)` and the optional third
  separator with its optional flag characters.
* Compiled regular expressions (the external `re` collaborator) are
  embedded as the abstract syntax `Regex` with Brzozowski-derivative
  matching; `matchAtStart` embeds the semantics of Python
  `pattern.match` (a match anchored at the start of the string, i.e.
  some prefix of the string is matched).  Where the code calls
  `re.compile`, the embedding takes a `compile : String → Option Regex`
  parameter, since regular-expression compilation is delegated to the
  external engine and may fail.
* Events are records with a name, begin and end instants (timezone
  aware instants are embedded as integers with their total order, which
  is all the code uses of them), an all-day flag, and a duration in
  seconds.  Durations are embedded as rationals (the code works with
  Python floats obtained from `timedelta.total_seconds()`).
* The observable output is embedded as a list of `Line` values in print
  order: the `Processing events from X to Y` header printed on line 90
  of the source, the `Replacing P with R` diagnostics printed on line
  71, the `Unable to parse regex S` message printed on line 65, and the
  final `name: hours` group lines printed on line 109.
-/

namespace CalendarAnalyzer

/-! ## The pyparsing rule grammar (source lines 49-59) -/

/-- Default whitespace characters skipped by pyparsing before each
grammar element: space, tab and newline. -/
def ppWsChar (c : Char) : Bool := c = ' ' || c = '\t' || c = '\n'

/-- Skip leading pyparsing whitespace. -/
def skipWs (s : List Char) : List Char := s.dropWhile ppWsChar

/-- The character set of `pp.Word(pp.printables + spaceTabNlCr, excludeChars = slash)`:
printable ASCII (codes 33-126) together with space, tab, newline and
carriage return, excluding the separator character. -/
def wordChar (c : Char) : Bool :=
  ((33 ≤ c.toNat && c.toNat ≤ 126) || c = ' ' || c = '\t' || c = '\n' || c = '\r')
    && !(c = '/')

/-- The flag alternatives accepted after the optional third separator. -/
def flagChar (c : Char) : Bool := c = 'i' || c = 'L' || c = 's' || c = 'u' || c = 'x'

/-- The `pp.ZeroOrMore` loop over the single-character flag literals, with explicit
fuel for structural recursion: repeatedly skip whitespace and consume
one flag character; stop (without consuming) at the first position where
no flag alternative matches.  Returns the flags consumed and the
remaining input. -/
def parseFlagsF : Nat → List Char → List Char × List Char
  | 0, s => ([], s)
  | fuel + 1, s =>
    match skipWs s with
    | [] => ([], s)
    | c :: rest =>
      if flagChar c then
        let pr := parseFlagsF fuel rest
        (c :: pr.1, pr.2)
      else ([], s)

/-- The flag loop at its top-level fuel.  Each iteration consumes at
least the flag character, so a fuel of one more than the input length is
never exhausted; `parseFlagsF_fuel_irrel` below shows the result does
not depend on the fuel once it exceeds the input length. -/
def parseFlags (s : List Char) : List Char × List Char :=
  parseFlagsF (s.length + 1) s

/-- The rule grammar of `_parse_regexes` (source lines 49-59):
separator, pattern word, separator, replacement word, then optionally a
third separator followed by zero or more flag characters, then end of
string.  Each element skips leading pyparsing whitespace, as pyparsing
does.  Returns `(pattern, replacement, flags)` on success. -/
def parseRule (s : List Char) : Option (List Char × List Char × List Char) :=
  match skipWs s with
  | '/' :: s2 =>
    let s2w := skipWs s2
    let pat := s2w.takeWhile wordChar
    let s3 := s2w.dropWhile wordChar
    if pat = [] then none else
    match skipWs s3 with
    | '/' :: s4 =>
      let s4w := skipWs s4
      let rep := s4w.takeWhile wordChar
      let s5 := s4w.dropWhile wordChar
      if rep = [] then none else
      let fl :=
        match skipWs s5 with
        | '/' :: s6 => parseFlags s6
        | _ => ([], s5)
      if skipWs fl.2 = [] then some (pat, rep, fl.1) else none
    | _ => none
  | _ => none

/-- String-level wrapper of `parseRule`. -/
def parseRuleStr (s : String) : Option (String × String × String) :=
  (parseRule s.data).map (fun pr => (⟨pr.1⟩, ⟨pr.2.1⟩, ⟨pr.2.2⟩))

/-- The pattern string handed to `re.compile` (source lines 67-70): when
flag characters are present the inline flag group is prepended,
otherwise the pattern is compiled as-is. -/
def regex_str (pat flags : String) : String :=
  if flags = "" then pat else "(?" ++ flags ++ ")" ++ pat

/-! ## Compiled patterns: the external regex engine (`re`) -/

/-- Abstract syntax of compiled regular expressions. -/
inductive Regex where
  | emptyset : Regex
  | eps : Regex
  | char : Char → Regex
  | anyChar : Regex
  | alt : Regex → Regex → Regex
  | seq : Regex → Regex → Regex
  | star : Regex → Regex
deriving DecidableEq, Repr

/-- Whether a regex accepts the empty string. -/
def nullable : Regex → Bool
  | .emptyset => false
  | .eps => true
  | .char _ => false
  | .anyChar => false
  | .alt a b => nullable a || nullable b
  | .seq a b => nullable a && nullable b
  | .star _ => true

/-- Brzozowski derivative of a regex by one character. -/
def deriv : Regex → Char → Regex
  | .emptyset, _ => .emptyset
  | .eps, _ => .emptyset
  | .char c, x => if x = c then .eps else .emptyset
  | .anyChar, _ => .eps
  | .alt a b, x => .alt (deriv a x) (deriv b x)
  | .seq a b, x =>
    if nullable a then .alt (.seq (deriv a x) b) (deriv b x)
    else .seq (deriv a x) b
  | .star a, x => .seq (deriv a x) (.star a)

/-- Whole-string match of a regex. -/
def rmatch (r : Regex) : List Char → Bool
  | [] => nullable r
  | c :: cs => rmatch (deriv r c) cs

/-- Python `pattern.match(s)` semantics: the pattern matches anchored at
the start of `s`, i.e. it matches some prefix of `s`. -/
def matchAtStart (r : Regex) : List Char → Bool
  | [] => nullable r
  | c :: cs => nullable r || matchAtStart (deriv r c) cs

/-- Regex for a literal sequence of characters. -/
def litSeq : List Char → Regex
  | [] => .eps
  | c :: cs => .seq (.char c) (litSeq cs)

/-- Regex for a literal followed by a Kleene star of the any-character
class, i.e. the shape of a pattern such as a literal followed by a dot
star suffix. -/
def litDotStar (cs : List Char) : Regex := .seq (litSeq cs) (.star .anyChar)

/-! ## Grouping, duration conversion (source lines 13-36) -/

/-- Embedding of `_group` (source lines 13-25): the replacement of the first rule
whose compiled pattern matches at the start of the string, or the string
itself when no rule matches. -/
def _group (s : String) (groups : List (Regex × String)) : String :=
  match groups with
  | [] => s
  | (pattern, replacement) :: rest =>
    if matchAtStart pattern s.data then replacement else _group s rest

/-- Embedding of `_total_hours` (source lines 28-36): seconds divided by 3600.0. -/
def _total_hours (seconds : ℚ) : ℚ := seconds / 3600

/-! ## Events and the aggregation pass (source lines 76-109) -/

/-- A calendar event as the script consumes it from the external
calendar-parsing collaborator: name, begin and end instants, all-day
flag, and duration in seconds. -/
structure Event where
  name : String
  beginTime : Int
  endTime : Int
  all_day : Bool
  duration : ℚ
deriving DecidableEq, Repr

/-- The three skip conditions of the event loop (source lines 96-101):
all-day events are skipped unless the all-day flag is set; with a start
boundary set, events beginning strictly before it are skipped; with an
end boundary set, events ending strictly after it are skipped. -/
def skipEvent (allday : Bool) (start_date end_date : Option Int) (e : Event) : Bool :=
  (!allday && e.all_day)
    || (match start_date with
        | some s => decide (e.beginTime < s)
        | none => false)
    || (match end_date with
        | some t => decide (e.endTime > t)
        | none => false)

/-- The update `groups[name] += v` on the insertion-ordered association list that
embeds the Python `defaultdict` with default `0`: add to an existing
key, or append a fresh key at the end. -/
def addToGroup : List (String × ℚ) → String → ℚ → List (String × ℚ)
  | [], k, v => [(k, v)]
  | (k0, v0) :: rest, k, v =>
    if k0 = k then (k0, v0 + v) :: rest
    else (k0, v0) :: addToGroup rest k v

/-- Lookup in the association list, with the defaultdict default `0`
for absent keys. -/
def lookupGroup (l : List (String × ℚ)) (k : String) : ℚ :=
  match l with
  | [] => 0
  | (k0, v0) :: rest => if k0 = k then v0 else lookupGroup rest k

/-- One iteration of the event loop (source lines 95-104): a skipped
event leaves the state unchanged; an included event adds its duration
to the running total and to the group resolved by `_group`. -/
def stepEvent (start_date end_date : Option Int) (allday : Bool)
    (regexes : List (Regex × String)) (acc : List (String × ℚ) × ℚ) (e : Event) :
    List (String × ℚ) × ℚ :=
  if skipEvent allday start_date end_date e then acc
  else (addToGroup acc.1 (_group e.name regexes) e.duration, acc.2 + e.duration)

/-- The whole event loop: fold `stepEvent` over the calendar's events in
order, starting from the empty defaultdict and total `0`.  Returns the
group accumulator and `total_seconds`. -/
def processEvents (start_date end_date : Option Int) (allday : Bool)
    (regexes : List (Regex × String)) (events : List Event) :
    List (String × ℚ) × ℚ :=
  events.foldl (stepEvent start_date end_date allday regexes) ([], 0)

/-! ## Observable output and the whole run (source lines 60-109) -/

/-- One printed line of the script, in structured form. -/
inductive Line where
  | processing : Option Int → Option Int → Line
  | replacing : String → String → Line
  | unableToParse : String → Line
  | group : String → ℚ → Line
deriving DecidableEq, Repr

/-- Embedding of `_parse_regexes` (source lines 39-73), parameterised by the external
regex engine's `compile`.  For each raw rule string in order: on a
grammar failure, print the `Unable to parse regex` diagnostic naming
the string and abort; on success, build `regex_str`, print the
`Replacing` diagnostic (source line 71, before the `re.compile` call on
line 72), then compile, aborting if compilation fails.  Returns the
lines printed and, unless aborted, the compiled rule list. -/
def _parse_regexes (compile : String → Option Regex) :
    List String → List Line × Option (List (Regex × String))
  | [] => ([], some [])
  | regex :: rest =>
    match parseRuleStr regex with
    | none => ([Line.unableToParse regex], none)
    | some (pat, rep, flags) =>
      let rs := regex_str pat flags
      match compile rs with
      | none => ([Line.replacing rs rep], none)
      | some compiled =>
        let next := _parse_regexes compile rest
        (Line.replacing rs rep :: next.1, next.2.map (fun l => (compiled, rep) :: l))

/-- Stable insertion into a list sorted by descending value: the new
entry goes after every existing entry whose value is at least as
large. -/
def insertDesc (x : String × ℚ) : List (String × ℚ) → List (String × ℚ)
  | [] => [x]
  | y :: ys => if x.2 ≤ y.2 then y :: insertDesc x ys else x :: y :: ys

/-- The sort `sorted(groups.items(), key = value, reverse = True)` (source lines
106-108): a stable sort of the insertion-ordered entries by descending
accumulated duration. -/
def sortGroupsDesc (l : List (String × ℚ)) : List (String × ℚ) :=
  l.foldl (fun acc x => insertDesc x acc) []

/-- Embedding of `_process_calendar` (source lines 76-109), with the calendar file
already parsed into its event list by the external calendar
collaborator.  Prints the header line, parses the rules (which prints
their diagnostics), and if that succeeded runs the event loop and
prints one line per group in descending duration order.  Returns the
printed lines in order and, unless rule parsing aborted, the group
accumulator with `total_seconds`. -/
def _process_calendar (compile : String → Option Regex)
    (start_date end_date : Option Int) (allday : Bool)
    (grouping_regex_strs : List String) (events : List Event) :
    List Line × Option (List (String × ℚ) × ℚ) :=
  let header := Line.processing start_date end_date
  let parsed := _parse_regexes compile grouping_regex_strs
  match parsed.2 with
  | none => (header :: parsed.1, none)
  | some regexes =>
    let res := processEvents start_date end_date allday regexes events
    (header :: parsed.1
       ++ (sortGroupsDesc res.1).map (fun nd => Line.group nd.1 (_total_hours nd.2)),
     some res)

/-! ## CLI argument models (source lines 112-159) -/

/-- A single-quote character, for building error messages. -/
def squote : String := ⟨[Char.ofNat 39]⟩

/-- The possible outcomes of the external date library's `arrow.get`,
distinguished by the exception class it raises on failure: it may
return an instant, raise a `TypeError`, or raise its own parser error
(the class `arrow.parser.ParserError` it raises for a string it cannot
parse, which is not a `TypeError`). -/
inductive ArrowOutcome where
  | ok : Int → ArrowOutcome
  | typeError : ArrowOutcome
  | parserError : ArrowOutcome
deriving DecidableEq, Repr

/-- The observable result of `_valid_date`: a date, a raised
`ArgumentTypeError` carrying a message, or an exception from the date
library that the function's handler does not catch and therefore
propagates. -/
inductive DateResult where
  | ok : Int → DateResult
  | argumentTypeError : String → DateResult
  | uncaughtParserError : DateResult
deriving DecidableEq, Repr

/-- Embedding of `_valid_date` (source lines 112-126), parameterised by
the external date library's `arrow.get`.  The handler on source line
124 is `except TypeError:` — it converts exactly a `TypeError` into the
`ArgumentTypeError` with the `Not a valid date` message quoting the
value; the library's own parser error is not a `TypeError`, so it is
not caught and propagates out of `_valid_date`. -/
def _valid_date (arrowGet : String → ArrowOutcome) (s : String) : DateResult :=
  match arrowGet s with
  | ArrowOutcome.ok d => DateResult.ok d
  | ArrowOutcome.typeError =>
    DateResult.argumentTypeError ("Not a valid date: " ++ squote ++ s ++ squote ++ ".")
  | ArrowOutcome.parserError => DateResult.uncaughtParserError

/-- A concrete stub of the external date library: it parses one fixed
ISO date and raises its parser error on everything else, as the real
library does for a string it cannot parse. -/
def arrowGetStub : String → ArrowOutcome := fun s =>
  if s = "2020-01-01" then ArrowOutcome.ok 0 else ArrowOutcome.parserError

/-- A regex-compilation collaborator that rejects every pattern, for
exercising the compile-failure abort concretely. -/
def noneCompile : String → Option Regex := fun _ => none

/-- Python `bool` applied to a string: true exactly when the string is
non-empty. -/
def pyBool (s : String) : Bool := decide (s ≠ "")

/-- The value of `args.allday` (source lines 147-150): the option is
declared with `type = bool` and `default = False`, so an omitted option
yields false and a supplied value string is converted by Python
`bool`. -/
def alldayArg : Option String → Bool
  | none => false
  | some v => pyBool v

/-! ## Concrete instances used for evaluation -/

/-- A total regex-compilation collaborator used for concrete runs: the
returned regex is irrelevant to the line-structure facts it witnesses. -/
def totalCompile : String → Option Regex := fun str => some (litSeq str.data)

/-- The compiled rule list of the worked example: the first rule matches
a literal word followed by any suffix, as the pattern of the form
word-dot-star compiles in the external engine. -/
def exampleRules : List (Regex × String) :=
  [(litDotStar "Meeting".data, "Work"), (litDotStar "Lunch".data, "Personal")]

/-- The events of the worked example, with durations in seconds. -/
def exampleEvents : List Event :=
  [⟨"Meeting A", 0, 3600, false, 3600⟩,
   ⟨"Meeting B", 0, 1800, false, 1800⟩,
   ⟨"Lunch", 0, 900, false, 900⟩]

/-- A single compiled rule used for concrete grouping runs. -/
def fooRules : List (Regex × String) := [(litSeq "foo".data, "bar")]

/-- A concrete event whose name the rule of `fooRules` matches at the
start. -/
def fooEvent : Event := ⟨"foobaz", 0, 10, false, 5⟩

/-! ## Helper lemmas about matching and grouping -/

theorem length_dropWhile_le (p : Char → Bool) :
    ∀ l : List Char, (l.dropWhile p).length ≤ l.length := by
  intro l
  induction l with
  | nil => simp [List.dropWhile]
  | cons c cs ih =>
    simp only [List.dropWhile]
    cases p c
    · simp
    · simp
      omega

theorem skipWs_length_le (s : List Char) : (skipWs s).length ≤ s.length :=
  length_dropWhile_le ppWsChar s

theorem parseFlagsF_fuel_irrel :
    ∀ (f1 f2 : Nat) (s : List Char), s.length < f1 → s.length < f2 →
      parseFlagsF f1 s = parseFlagsF f2 s := by
  intro f1
  induction f1 with
  | zero =>
    intro f2 s h1 h2
    exact absurd h1 (by omega)
  | succ a ih =>
    intro f2 s h1 h2
    cases f2 with
    | zero => exact absurd h2 (by omega)
    | succ b =>
      simp only [parseFlagsF]
      cases hs : skipWs s with
      | nil => rfl
      | cons c rest =>
        have hl : rest.length < s.length := by
          have hle := skipWs_length_le s
          rw [hs] at hle
          simp only [List.length_cons] at hle
          omega
        by_cases hc : flagChar c = true
        · simp only [hc, if_pos]
          rw [ih b rest (by omega) (by omega)]
        · simp [hc]



theorem matchAtStart_iff_split (r : Regex) (s : List Char) :
    matchAtStart r s = true ↔ ∃ p q, s = p ++ q ∧ rmatch r p = true := by
  induction s generalizing r with
  | nil =>
    constructor
    · intro h
      exact ⟨[], [], rfl, h⟩
    · rintro ⟨p, q, hs, hm⟩
      rcases List.append_eq_nil.mp hs.symm with ⟨hp, _⟩
      subst hp
      exact hm
  | cons c cs ih =>
    simp only [matchAtStart, Bool.or_eq_true]
    constructor
    · rintro (h | h)
      · exact ⟨[], c :: cs, rfl, h⟩
      · obtain ⟨p, q, hs, hm⟩ := (ih (deriv r c)).mp h
        exact ⟨c :: p, q, by simp [hs], hm⟩
    · rintro ⟨p, q, hs, hm⟩
      cases p with
      | nil =>
        left
        exact hm
      | cons c0 p0 =>
        injection hs with h1 h2
        subst h1
        right
        exact (ih (deriv r c)).mpr ⟨p0, q, h2, hm⟩

theorem group_eq_find (s : String) (groups : List (Regex × String)) :
    _group s groups =
      match groups.find? (fun pr => matchAtStart pr.1 s.data) with
      | some pr => pr.2
      | none => s := by
  induction groups with
  | nil => rfl
  | cons pr rest ih =>
    obtain ⟨pattern, replacement⟩ := pr
    simp only [_group, List.find?]
    by_cases h : matchAtStart pattern s.data = true
    · simp [h]
    · simp only [Bool.not_eq_true] at h
      simp [h, ih]

theorem lookupGroup_addToGroup (l : List (String × ℚ)) (k : String) (v : ℚ) (x : String) :
    lookupGroup (addToGroup l k v) x = lookupGroup l x + (if x = k then v else 0) := by
  induction l with
  | nil =>
    by_cases h : x = k
    · subst h
      simp [addToGroup, lookupGroup]
    · have h2 : ¬ k = x := fun he => h he.symm
      simp [addToGroup, lookupGroup, h, h2]
  | cons kv rest ih =>
    obtain ⟨k0, v0⟩ := kv
    by_cases h0 : k0 = k
    · subst h0
      by_cases hx : k0 = x
      · subst hx
        simp [addToGroup, lookupGroup]
      · have h2 : ¬ x = k0 := fun he => hx he.symm
        simp [addToGroup, lookupGroup, hx, h2]
    · by_cases hx : k0 = x
      · subst hx
        have h2 : ¬ k0 = k := h0
        simp [addToGroup, lookupGroup, h0, h2]
      · simp [addToGroup, lookupGroup, h0, hx, ih]

theorem key_mem_addToGroup (l : List (String × ℚ)) (k : String) (v : ℚ) :
    k ∈ (addToGroup l k v).map Prod.fst := by
  induction l with
  | nil => simp [addToGroup]
  | cons kv rest ih =>
    obtain ⟨k0, v0⟩ := kv
    by_cases h0 : k0 = k
    · subst h0
      simp [addToGroup]
    · simp only [addToGroup, if_neg h0, List.map_cons, List.mem_cons]
      exact Or.inr ih

theorem keys_mono_addToGroup (l : List (String × ℚ)) (k : String) (v : ℚ) (x : String)
    (h : x ∈ l.map Prod.fst) : x ∈ (addToGroup l k v).map Prod.fst := by
  induction l with
  | nil => simp at h
  | cons kv rest ih =>
    obtain ⟨k0, v0⟩ := kv
    simp only [List.map_cons, List.mem_cons] at h
    by_cases h0 : k0 = k
    · subst h0
      simpa [addToGroup] using h
    · simp only [addToGroup, if_neg h0, List.map_cons, List.mem_cons]
      rcases h with h | h
      · exact Or.inl h
      · exact Or.inr (ih h)

theorem keys_mono_foldl (start_date end_date : Option Int) (allday : Bool)
    (regexes : List (Regex × String)) (events : List Event)
    (acc : List (String × ℚ) × ℚ) (x : String) (h : x ∈ acc.1.map Prod.fst) :
    x ∈ (events.foldl (stepEvent start_date end_date allday regexes) acc).1.map Prod.fst := by
  induction events generalizing acc with
  | nil => exact h
  | cons e rest ih =>
    simp only [List.foldl_cons]
    apply ih
    simp only [stepEvent]
    by_cases hs : skipEvent allday start_date end_date e = true
    · simp [hs, h]
    · simp only [Bool.not_eq_true] at hs
      simp only [hs, Bool.false_eq_true, if_false]
      exact keys_mono_addToGroup _ _ _ _ h

/-! ## Helper lemmas about the running total -/

/-- The sum of the accumulated durations over all groups. -/
def sumValues (l : List (String × ℚ)) : ℚ := (l.map Prod.snd).sum

theorem sumValues_addToGroup (l : List (String × ℚ)) (k : String) (v : ℚ) :
    sumValues (addToGroup l k v) = sumValues l + v := by
  induction l with
  | nil => simp [addToGroup, sumValues]
  | cons kv rest ih =>
    obtain ⟨k0, v0⟩ := kv
    simp only [addToGroup]
    by_cases h0 : k0 = k
    · subst h0
      simp [sumValues]
      ring
    · simp only [if_neg h0]
      simp [sumValues] at ih ⊢
      rw [ih]
      ring

theorem total_invariant (start_date end_date : Option Int) (allday : Bool)
    (regexes : List (Regex × String)) (events : List Event)
    (acc : List (String × ℚ) × ℚ) (h : acc.2 = sumValues acc.1) :
    (events.foldl (stepEvent start_date end_date allday regexes) acc).2
      = sumValues (events.foldl (stepEvent start_date end_date allday regexes) acc).1 := by
  induction events generalizing acc with
  | nil => exact h
  | cons e rest ih =>
    simp only [List.foldl_cons]
    apply ih
    simp only [stepEvent]
    by_cases hs : skipEvent allday start_date end_date e = true
    · simp [hs, h]
    · simp only [Bool.not_eq_true] at hs
      simp only [hs, Bool.false_eq_true, if_false]
      rw [sumValues_addToGroup, h]

/-! ## Helper lemmas about the descending sort -/

theorem insertDesc_perm (x : String × ℚ) (l : List (String × ℚ)) :
    List.Perm (insertDesc x l) (x :: l) := by
  induction l with
  | nil => exact List.Perm.refl _
  | cons y ys ih =>
    simp only [insertDesc]
    by_cases h : x.2 ≤ y.2
    · simp only [if_pos h]
      exact ((ih.cons y).trans (List.Perm.swap x y ys))
    · simp only [if_neg h]
      exact List.Perm.refl _

theorem mem_insertDesc (x a : String × ℚ) (l : List (String × ℚ)) :
    a ∈ insertDesc x l ↔ a = x ∨ a ∈ l := by
  rw [(insertDesc_perm x l).mem_iff]
  simp

theorem insertDesc_pairwise (x : String × ℚ) (l : List (String × ℚ))
    (h : List.Pairwise (fun a b : String × ℚ => b.2 ≤ a.2) l) :
    List.Pairwise (fun a b : String × ℚ => b.2 ≤ a.2) (insertDesc x l) := by
  induction l with
  | nil => simp [insertDesc]
  | cons y ys ih =>
    rcases List.pairwise_cons.mp h with ⟨hy, hys⟩
    simp only [insertDesc]
    by_cases hle : x.2 ≤ y.2
    · simp only [if_pos hle]
      apply List.pairwise_cons.mpr
      refine ⟨?_, ih hys⟩
      intro a ha
      rcases (mem_insertDesc x a ys).mp ha with ha | ha
      · subst ha
        exact hle
      · exact hy a ha
    · simp only [if_neg hle]
      have hyx : y.2 ≤ x.2 := le_of_not_le hle
      apply List.pairwise_cons.mpr
      refine ⟨?_, h⟩
      intro a ha
      rcases List.mem_cons.mp ha with ha | ha
      · subst ha
        exact hyx
      · exact le_trans (hy a ha) hyx

theorem sortGroupsDesc_aux_perm (l acc : List (String × ℚ)) :
    List.Perm (l.foldl (fun acc x => insertDesc x acc) acc) (l ++ acc) := by
  induction l generalizing acc with
  | nil => exact List.Perm.refl _
  | cons x xs ih =>
    simp only [List.foldl_cons, List.cons_append]
    refine (ih (insertDesc x acc)).trans ?_
    refine (List.Perm.append_left xs (insertDesc_perm x acc)).trans ?_
    exact List.perm_middle

theorem sortGroupsDesc_perm (l : List (String × ℚ)) :
    List.Perm (sortGroupsDesc l) l := by
  simpa using sortGroupsDesc_aux_perm l []

theorem sortGroupsDesc_aux_pairwise (l acc : List (String × ℚ))
    (h : List.Pairwise (fun a b : String × ℚ => b.2 ≤ a.2) acc) :
    List.Pairwise (fun a b : String × ℚ => b.2 ≤ a.2)
      (l.foldl (fun acc x => insertDesc x acc) acc) := by
  induction l generalizing acc with
  | nil => exact h
  | cons x xs ih =>
    simp only [List.foldl_cons]
    exact ih _ (insertDesc_pairwise x acc h)

theorem sortGroupsDesc_pairwise (l : List (String × ℚ)) :
    List.Pairwise (fun a b : String × ℚ => b.2 ≤ a.2) (sortGroupsDesc l) :=
  sortGroupsDesc_aux_pairwise l [] (List.Pairwise.nil)

/-! ## Helper lemmas about the rule grammar -/

theorem skipWs_cons_of_not_ws (c : Char) (l : List Char) (h : ppWsChar c = false) :
    skipWs (c :: l) = c :: l := by
  simp [skipWs, List.dropWhile, h]

theorem flagChar_not_ws (c : Char) (h : flagChar c = true) : ppWsChar c = false := by
  simp only [flagChar, Bool.or_eq_true, decide_eq_true_eq] at h
  rcases h with ((((rfl | rfl) | rfl) | rfl) | rfl) <;> decide

theorem takeWhile_all_stop (w : Char → Bool) (p : List Char) (x : Char) (t : List Char)
    (hp : ∀ c ∈ p, w c = true) (hx : w x = false) :
    (p ++ x :: t).takeWhile w = p ∧ (p ++ x :: t).dropWhile w = x :: t := by
  induction p with
  | nil => simp [List.takeWhile, List.dropWhile, hx]
  | cons c cs ih =>
    have hc : w c = true := hp c (List.mem_cons_self c cs)
    have ih2 := ih (fun a ha => hp a (List.mem_cons_of_mem c ha))
    simp [List.takeWhile, List.dropWhile, hc, ih2.1, ih2.2]

theorem takeWhile_all (w : Char → Bool) (p : List Char) (hp : ∀ c ∈ p, w c = true) :
    p.takeWhile w = p ∧ p.dropWhile w = [] := by
  induction p with
  | nil => simp
  | cons c cs ih =>
    have hc : w c = true := hp c (List.mem_cons_self c cs)
    have ih2 := ih (fun a ha => hp a (List.mem_cons_of_mem c ha))
    simp [List.takeWhile, List.dropWhile, hc, ih2.1, ih2.2]

theorem parseFlagsF_all :
    ∀ (fuel : Nat) (f : List Char), f.length < fuel → (∀ c ∈ f, flagChar c = true) →
      parseFlagsF fuel f = (f, []) := by
  intro fuel
  induction fuel with
  | zero =>
    intro f hlen _
    exact absurd hlen (by omega)
  | succ a ih =>
    intro f hlen hf
    cases f with
    | nil => rfl
    | cons c cs =>
      have hc : flagChar c = true := hf c (List.mem_cons_self c cs)
      have hw : ppWsChar c = false := flagChar_not_ws c hc
      have hrec := ih cs (by simp only [List.length_cons] at hlen; omega)
        (fun a ha => hf a (List.mem_cons_of_mem c ha))
      simp only [parseFlagsF, skipWs_cons_of_not_ws c cs hw]
      simp [hc, hrec]

theorem parseFlags_all (f : List Char) (hf : ∀ c ∈ f, flagChar c = true) :
    parseFlags f = (f, []) :=
  parseFlagsF_all (f.length + 1) f (by omega) hf

theorem parseFlagsF_sound :
    ∀ (fuel : Nat) (s : List Char), ∀ c ∈ (parseFlagsF fuel s).1, flagChar c = true := by
  intro fuel
  induction fuel with
  | zero =>
    intro s c hc
    simp [parseFlagsF] at hc
  | succ a ih =>
    intro s c hc
    simp only [parseFlagsF] at hc
    split at hc
    · simp at hc
    · next c1 rest _ =>
      by_cases hc1 : flagChar c1 = true
      · rw [if_pos hc1] at hc
        simp only [List.mem_cons] at hc
        rcases hc with rfl | hc
        · exact hc1
        · exact ih rest c hc
      · rw [if_neg hc1] at hc
        simp at hc

theorem parseFlags_sound (s : List Char) :
    ∀ c ∈ (parseFlags s).1, flagChar c = true :=
  parseFlagsF_sound (s.length + 1) s

theorem parseRule_wellformed (p r f : List Char)
    (hp : p ≠ []) (hpw : ∀ c ∈ p, wordChar c = true) (hph : ppWsChar p.headI = false)
    (hr : r ≠ []) (hrw : ∀ c ∈ r, wordChar c = true) (hrh : ppWsChar r.headI = false)
    (hf : ∀ c ∈ f, flagChar c = true) :
    parseRule ('/' :: p ++ '/' :: r ++ '/' :: f) = some (p, r, f) := by
  obtain ⟨ph, pt, rfl⟩ := List.exists_cons_of_ne_nil hp
  obtain ⟨rh, rt, rfl⟩ := List.exists_cons_of_ne_nil hr
  simp only [List.headI] at hph hrh
  have hsw : wordChar '/' = false := by decide
  have s0 : ∀ l, skipWs ('/' :: l) = '/' :: l := fun l => skipWs_cons_of_not_ws '/' l (by decide)
  have sp : ∀ l, skipWs (ph :: l) = ph :: l := fun l => skipWs_cons_of_not_ws ph l hph
  have sr : ∀ l, skipWs (rh :: l) = rh :: l := fun l => skipWs_cons_of_not_ws rh l hrh
  have sn : skipWs ([] : List Char) = [] := rfl
  have hp1 := (takeWhile_all_stop wordChar (ph :: pt) '/' (rh :: rt ++ '/' :: f) hpw hsw).1
  have hp2 := (takeWhile_all_stop wordChar (ph :: pt) '/' (rh :: rt ++ '/' :: f) hpw hsw).2
  have hr1 := (takeWhile_all_stop wordChar (rh :: rt) '/' f hrw hsw).1
  have hr2 := (takeWhile_all_stop wordChar (rh :: rt) '/' f hrw hsw).2
  have hfl := parseFlags_all f hf
  simp only [List.cons_append] at hp1 hp2 hr1 hr2 ⊢
  simp [parseRule, s0, sp, sr, sn, hp1, hp2, hr1, hr2, hfl]

theorem parseRule_wellformed_two_seps (p r : List Char)
    (hp : p ≠ []) (hpw : ∀ c ∈ p, wordChar c = true) (hph : ppWsChar p.headI = false)
    (hr : r ≠ []) (hrw : ∀ c ∈ r, wordChar c = true) (hrh : ppWsChar r.headI = false) :
    parseRule ('/' :: p ++ '/' :: r) = some (p, r, []) := by
  obtain ⟨ph, pt, rfl⟩ := List.exists_cons_of_ne_nil hp
  obtain ⟨rh, rt, rfl⟩ := List.exists_cons_of_ne_nil hr
  simp only [List.headI] at hph hrh
  have hsw : wordChar '/' = false := by decide
  have s0 : ∀ l, skipWs ('/' :: l) = '/' :: l := fun l => skipWs_cons_of_not_ws '/' l (by decide)
  have sp : ∀ l, skipWs (ph :: l) = ph :: l := fun l => skipWs_cons_of_not_ws ph l hph
  have sr : ∀ l, skipWs (rh :: l) = rh :: l := fun l => skipWs_cons_of_not_ws rh l hrh
  have sn : skipWs ([] : List Char) = [] := rfl
  have hp1 := (takeWhile_all_stop wordChar (ph :: pt) '/' (rh :: rt) hpw hsw).1
  have hp2 := (takeWhile_all_stop wordChar (ph :: pt) '/' (rh :: rt) hpw hsw).2
  have hr1 := (takeWhile_all wordChar (rh :: rt) hrw).1
  have hr2 := (takeWhile_all wordChar (rh :: rt) hrw).2
  simp only [List.cons_append] at hp1 hp2 hr1 hr2 ⊢
  simp [parseRule, s0, sp, sr, sn, hp1, hp2, hr1, hr2]

/-! ## Helper lemmas about the rule-parsing loop and the run -/

theorem parse_regexes_success_shape (compile : String → Option Regex) :
    ∀ (strs : List String) (rules : List (Regex × String)),
      (_parse_regexes compile strs).2 = some rules →
      (_parse_regexes compile strs).1.length = strs.length
        ∧ (∀ l ∈ (_parse_regexes compile strs).1, ∃ a b, l = Line.replacing a b) := by
  intro strs
  induction strs with
  | nil =>
    intro rules _
    simp [_parse_regexes]
  | cons s rest ih =>
    intro rules h
    simp only [_parse_regexes] at h ⊢
    cases hps : parseRuleStr s with
    | none =>
      rw [hps] at h
      simp at h
    | some prf =>
      obtain ⟨pat, rep, flags⟩ := prf
      rw [hps] at h
      dsimp only at h ⊢
      cases hc : compile (regex_str pat flags) with
      | none =>
        rw [hc] at h
        simp at h
      | some re =>
        rw [hc] at h
        dsimp only at h ⊢
        cases hr : (_parse_regexes compile rest).2 with
        | none =>
          rw [hr] at h
          simp at h
        | some rules0 =>
          have ih2 := ih rules0 hr
          refine ⟨by simp [ih2.1], ?_⟩
          intro l hl
          rcases List.mem_cons.mp hl with rfl | hl
          · exact ⟨_, _, rfl⟩
          · exact ih2.2 l hl

theorem parse_regexes_lines_shape (compile : String → Option Regex) :
    ∀ (strs : List String), ∀ l ∈ (_parse_regexes compile strs).1,
      (∃ a b, l = Line.replacing a b) ∨ (∃ a, l = Line.unableToParse a) := by
  intro strs
  induction strs with
  | nil =>
    intro l hl
    simp [_parse_regexes] at hl
  | cons s rest ih =>
    intro l hl
    simp only [_parse_regexes] at hl
    cases hps : parseRuleStr s with
    | none =>
      rw [hps] at hl
      simp only [List.mem_singleton] at hl
      exact Or.inr ⟨s, hl⟩
    | some prf =>
      obtain ⟨pat, rep, flags⟩ := prf
      rw [hps] at hl
      simp only at hl
      cases hc : compile (regex_str pat flags) with
      | none =>
        rw [hc] at hl
        simp only [List.mem_singleton] at hl
        exact Or.inl ⟨_, _, hl⟩
      | some re =>
        rw [hc] at hl
        simp only [List.mem_cons] at hl
        rcases hl with rfl | hl
        · exact Or.inl ⟨_, _, rfl⟩
        · exact ih l hl

theorem parse_regexes_abort (compile : String → Option Regex) :
    ∀ (strs : List String) (s : String), s ∈ strs →
      (parseRuleStr s = none
        ∨ ∃ pat rep flags, parseRuleStr s = some (pat, rep, flags)
            ∧ compile (regex_str pat flags) = none) →
      (_parse_regexes compile strs).2 = none := by
  intro strs
  induction strs with
  | nil =>
    intro s hmem _
    simp at hmem
  | cons s0 rest ih =>
    intro s hmem hbad
    simp only [_parse_regexes]
    cases hps : parseRuleStr s0 with
    | none => simp
    | some prf =>
      obtain ⟨pat0, rep0, flags0⟩ := prf
      simp only
      cases hc : compile (regex_str pat0 flags0) with
      | none => simp
      | some re =>
        simp only
        have hs : s ∈ rest := by
          rcases List.mem_cons.mp hmem with rfl | hs
          · rcases hbad with hb | ⟨pat, rep, flags, hsome, hcf⟩
            · rw [hps] at hb
              cases hb
            · rw [hps] at hsome
              injection hsome with htr
              cases htr
              rw [hc] at hcf
              cases hcf
          · exact hs
        rw [ih s hs hbad]
        rfl

theorem parse_regexes_error_cause (compile : String → Option Regex) :
    ∀ (strs : List String), (_parse_regexes compile strs).2 = none →
      (∃ s0 ∈ strs, parseRuleStr s0 = none
          ∧ Line.unableToParse s0 ∈ (_parse_regexes compile strs).1)
        ∨ (∃ s0 ∈ strs, ∃ pat rep flags, parseRuleStr s0 = some (pat, rep, flags)
            ∧ compile (regex_str pat flags) = none) := by
  intro strs
  induction strs with
  | nil =>
    intro h
    simp [_parse_regexes] at h
  | cons s rest ih =>
    intro h
    simp only [_parse_regexes] at h ⊢
    cases hps : parseRuleStr s with
    | none =>
      left
      refine ⟨s, List.mem_cons_self s rest, hps, ?_⟩
      simp
    | some prf =>
      obtain ⟨pat, rep, flags⟩ := prf
      rw [hps] at h
      dsimp only at h ⊢
      cases hc : compile (regex_str pat flags) with
      | none =>
        right
        exact ⟨s, List.mem_cons_self s rest, pat, rep, flags, hps, hc⟩
      | some re =>
        rw [hc] at h
        dsimp only at h ⊢
        cases hr : (_parse_regexes compile rest).2 with
        | some rules0 =>
          rw [hr] at h
          simp at h
        | none =>
          rcases ih hr with ⟨s0, hs0, hbad, hline⟩ | ⟨s0, hs0, pat0, rep0, flags0, hok, hcf⟩
          · left
            exact ⟨s0, List.mem_cons_of_mem s hs0, hbad, List.mem_cons_of_mem _ hline⟩
          · right
            exact ⟨s0, List.mem_cons_of_mem s hs0, pat0, rep0, flags0, hok, hcf⟩

theorem process_calendar_success (compile : String → Option Regex)
    (start_date end_date : Option Int) (allday : Bool)
    (strs : List String) (events : List Event) (rules : List (Regex × String))
    (h : (_parse_regexes compile strs).2 = some rules) :
    _process_calendar compile start_date end_date allday strs events
      = (Line.processing start_date end_date :: (_parse_regexes compile strs).1
           ++ (sortGroupsDesc (processEvents start_date end_date allday rules events).1).map
                (fun nd => Line.group nd.1 (_total_hours nd.2)),
         some (processEvents start_date end_date allday rules events)) := by
  simp [_process_calendar, h]

theorem process_calendar_failure (compile : String → Option Regex)
    (start_date end_date : Option Int) (allday : Bool)
    (strs : List String) (events : List Event)
    (h : (_parse_regexes compile strs).2 = none) :
    _process_calendar compile start_date end_date allday strs events
      = (Line.processing start_date end_date :: (_parse_regexes compile strs).1, none) := by
  simp [_process_calendar, h]

theorem parseRule_sound (s p0 r0 f0 : List Char)
    (h : parseRule s = some (p0, r0, f0)) :
    p0 ≠ [] ∧ r0 ≠ [] ∧ (∀ c ∈ p0, wordChar c = true) ∧ (∀ c ∈ r0, wordChar c = true)
      ∧ (∀ c ∈ f0, flagChar c = true) := by
  simp only [parseRule] at h
  split at h
  · split at h
    · simp at h
    · next hpne =>
      split at h
      · split at h
        · simp at h
        · next hrne =>
          split at h
          · rw [Option.some.injEq] at h
            cases h
            refine ⟨hpne, hrne, ?_, ?_, ?_⟩
            · intro c hc
              exact List.mem_takeWhile_imp hc
            · intro c hc
              exact List.mem_takeWhile_imp hc
            · intro c hc
              revert hc
              split
              · next s6 _ => exact fun hc => parseFlags_sound s6 c hc
              · simp
          · simp at h
      · simp at h
  · simp at h

theorem group_key_mem (start_date end_date : Option Int) (allday : Bool)
    (rules : List (Regex × String)) (events : List Event) (e : Event)
    (hmem : e ∈ events) (hinc : skipEvent allday start_date end_date e = false) :
    _group e.name rules
      ∈ (processEvents start_date end_date allday rules events).1.map Prod.fst := by
  obtain ⟨l1, l2, rfl⟩ := List.append_of_mem hmem
  simp only [processEvents, List.foldl_append, List.foldl_cons]
  apply keys_mono_foldl
  simp only [stepEvent, hinc, Bool.false_eq_true, if_false]
  exact key_mem_addToGroup _ _ _

/-! ## The claims -/

/-- C1, corrected, counterexample: an event whose end instant equals the
end boundary is NOT excluded by the filter — the skip test on source
line 100 is `event.end > end_date`, which is false at equality, so the
event is included and its duration is counted. -/
theorem claim1_counterexample :
    skipEvent true none (some 100) ⟨"E", 0, 100, false, 1⟩ = false
    ∧ processEvents none (some 100) true [] [⟨"E", 0, 100, false, 1⟩]
        = ([("E", 1)], 1) := by
  constructor
  · decide
  · simp [processEvents, stepEvent, skipEvent, _group, addToGroup]

/-- C1, amended: for an event that passes the all-day test, the filter
skips it exactly when a start boundary is set and the event begins
strictly before it, or an end boundary is set and the event ends
strictly after it; an event whose start equals the start boundary is
admitted, and an event whose end equals the end boundary is also
admitted (not excluded, as the original claim stated). -/
theorem claim1_date_filter (allday : Bool) (start_date end_date : Option Int) (e : Event)
    (hall : (!allday && e.all_day) = false) :
    (skipEvent allday start_date end_date e = true ↔
      (∃ s, start_date = some s ∧ e.beginTime < s)
        ∨ (∃ t, end_date = some t ∧ e.endTime > t))
    ∧ (∀ s, start_date = some s → e.beginTime = s →
        (∀ t, end_date = some t → e.endTime ≤ t) →
        skipEvent allday start_date end_date e = false)
    ∧ (∀ t, end_date = some t → e.endTime = t →
        (∀ s, start_date = some s → s ≤ e.beginTime) →
        skipEvent allday start_date end_date e = false) := by
  refine ⟨?_, ?_, ?_⟩
  · simp only [skipEvent, hall, Bool.false_or, Bool.or_eq_true]
    cases start_date with
    | none =>
      cases end_date with
      | none => simp
      | some t => simp
    | some s =>
      cases end_date with
      | none => simp
      | some t => simp
  · intro s hs hb hend
    subst hs
    simp only [skipEvent, hall, Bool.false_or, Bool.or_eq_false_iff]
    constructor
    · simp [hb]
    · cases end_date with
      | none => rfl
      | some t =>
        have := hend t rfl
        simp
        omega
  · intro t ht he hstart
    subst ht
    simp only [skipEvent, hall, Bool.false_or, Bool.or_eq_false_iff]
    constructor
    · cases start_date with
      | none => rfl
      | some s =>
        have := hstart s rfl
        simp
        omega
    · simp [he]

/-- C1 witness: with both boundaries set, an event starting exactly at
the start boundary and ending exactly at the end boundary is included. -/
theorem claim1_witness :
    (!false && (⟨"E", 0, 10, false, 1⟩ : Event).all_day) = false
    ∧ skipEvent false (some 0) (some 10) ⟨"E", 0, 10, false, 1⟩ = false :=
  ⟨by decide,
   (claim1_date_filter false (some 0) (some 10) ⟨"E", 0, 10, false, 1⟩ (by decide)).2.2
     10 rfl rfl (fun s hs => by injection hs with h; subst h; decide)⟩

/-- C2, confirmed: an included event adds its full duration to exactly
one group — the one named by the replacement of the first rule whose
compiled pattern matches at the start of its original name (replacing
the whole name), or the event's own unchanged name when no rule matches
(in particular with the empty rule list); `matchAtStart` is the
anchored-at-start match, i.e. some prefix of the name is matched. -/
theorem claim2_grouping (start_date end_date : Option Int) (allday : Bool)
    (regexes : List (Regex × String)) (events : List Event) (e : Event)
    (h : skipEvent allday start_date end_date e = false) :
    (∀ k, lookupGroup (processEvents start_date end_date allday regexes (events ++ [e])).1 k
        = lookupGroup (processEvents start_date end_date allday regexes events).1 k
          + (if k = _group e.name regexes then e.duration else 0))
    ∧ (_group e.name regexes =
        match regexes.find? (fun pr => matchAtStart pr.1 e.name.data) with
        | some pr => pr.2
        | none => e.name)
    ∧ (∀ r0 : Regex, matchAtStart r0 e.name.data = true ↔
        ∃ p q, e.name.data = p ++ q ∧ rmatch r0 p = true)
    ∧ _group e.name [] = e.name := by
  refine ⟨?_, group_eq_find e.name regexes,
    fun r0 => matchAtStart_iff_split r0 e.name.data, rfl⟩
  intro k
  have hfold : processEvents start_date end_date allday regexes (events ++ [e])
      = stepEvent start_date end_date allday regexes
          (processEvents start_date end_date allday regexes events) e := by
    simp [processEvents, List.foldl_append]
  rw [hfold]
  simp only [stepEvent, h, Bool.false_eq_true, if_false]
  exact lookupGroup_addToGroup _ _ _ k

/-- C2 witness: the event named after a matching-prefix name lands in
the rule's replacement group with its full duration. -/
theorem claim2_witness :
    skipEvent false none none fooEvent = false
    ∧ ((∀ k, lookupGroup (processEvents none none false fooRules ([] ++ [fooEvent])).1 k
        = lookupGroup (processEvents none none false fooRules []).1 k
          + (if k = _group fooEvent.name fooRules then fooEvent.duration else 0))
      ∧ (_group fooEvent.name fooRules =
          match fooRules.find? (fun pr => matchAtStart pr.1 fooEvent.name.data) with
          | some pr => pr.2
          | none => fooEvent.name)
      ∧ (∀ r0 : Regex, matchAtStart r0 fooEvent.name.data = true ↔
          ∃ p q, fooEvent.name.data = p ++ q ∧ rmatch r0 p = true)
      ∧ _group fooEvent.name [] = fooEvent.name) :=
  ⟨by decide, claim2_grouping none none false fooRules [] fooEvent (by decide)⟩

/-- C3, corrected, counterexample: the string with only two separators
and no third separator at all parses successfully (the grammar wraps the
third separator and the flags in `pp.Optional`), contradicting the
claim that all three separators are required and that a string missing
the third separator is a parse error. -/
theorem claim3_counterexample :
    parseRuleStr "/a/b" = some ("a", "b", "") := by decide

/-- C3, amended: parsing succeeds on separator-pattern-separator-
replacement with the third separator and the flags optional; pattern
and replacement must be non-empty words over the grammar's character
set (which excludes the separator), flags are drawn from the five flag
characters, and nothing may be left over; conversely any successful
parse yields non-empty separator-free pattern and replacement and
well-formed flags. -/
theorem claim3_grammar (p r f s : List Char)
    (hp : p ≠ []) (hpw : ∀ c ∈ p, wordChar c = true) (hph : ppWsChar p.headI = false)
    (hr : r ≠ []) (hrw : ∀ c ∈ r, wordChar c = true) (hrh : ppWsChar r.headI = false)
    (hf : ∀ c ∈ f, flagChar c = true) :
    parseRule ('/' :: p ++ '/' :: r ++ '/' :: f) = some (p, r, f)
    ∧ parseRule ('/' :: p ++ '/' :: r) = some (p, r, [])
    ∧ (∀ p0 r0 f0, parseRule s = some (p0, r0, f0) →
        p0 ≠ [] ∧ r0 ≠ [] ∧ (∀ c ∈ p0, wordChar c = true) ∧ (∀ c ∈ r0, wordChar c = true)
          ∧ (∀ c ∈ f0, flagChar c = true)) :=
  ⟨parseRule_wellformed p r f hp hpw hph hr hrw hrh hf,
   parseRule_wellformed_two_seps p r hp hpw hph hr hrw hrh,
   fun p0 r0 f0 h0 => parseRule_sound s p0 r0 f0 h0⟩

/-- C3 witness: a concrete well-formed rule string parses in both the
three-separator form (with a flag) and the two-separator form. -/
theorem claim3_witness :
    parseRule ('/' :: ['a'] ++ '/' :: ['b'] ++ '/' :: ['i']) = some (['a'], ['b'], ['i'])
    ∧ parseRule ('/' :: ['a'] ++ '/' :: ['b']) = some (['a'], ['b'], []) :=
  ⟨(claim3_grammar ['a'] ['b'] ['i'] []
      (by decide) (by decide) (by decide) (by decide) (by decide) (by decide) (by decide)).1,
   (claim3_grammar ['a'] ['b'] ['i'] []
      (by decide) (by decide) (by decide) (by decide) (by decide) (by decide) (by decide)).2.1⟩

/-- C4, confirmed: the running total of seconds maintained by the event
loop always equals the sum of the durations accumulated over all
groups, and on the worked example the aggregation yields the Work and
Personal groups with the stated totals. -/
theorem claim4_total (start_date end_date : Option Int) (allday : Bool)
    (regexes : List (Regex × String)) (events : List Event) :
    (processEvents start_date end_date allday regexes events).2
      = sumValues (processEvents start_date end_date allday regexes events).1
    ∧ processEvents none none false exampleRules exampleEvents
        = ([("Work", 5400), ("Personal", 900)], 6300)
    ∧ (5400 : ℚ) + 900 = 6300 := by
  refine ⟨?_, ?_, by norm_num⟩
  · simp only [processEvents]
    exact total_invariant start_date end_date allday regexes events ([], 0) (by simp [sumValues])
  · have h1 : matchAtStart (litDotStar "Meeting".data) "Meeting A".data = true := by decide
    have h2 : matchAtStart (litDotStar "Meeting".data) "Meeting B".data = true := by decide
    have h3 : matchAtStart (litDotStar "Meeting".data) "Lunch".data = false := by decide
    have h4 : matchAtStart (litDotStar "Lunch".data) "Lunch".data = true := by decide
    simp [processEvents, stepEvent, skipEvent, _group, exampleRules, exampleEvents,
          addToGroup, h1, h2, h3, h4]
    norm_num

/-- C5, corrected, counterexample: on a run with one parsed rule, the
first printed line is the `Processing events from X to Y` header
(source line 90) and the rule diagnostic comes second — not the order
the claim states (rule diagnostics first, then the header). -/
theorem claim5_counterexample :
    (_process_calendar totalCompile none none false ["/a/b/"] []).1
      = [Line.processing none none, Line.replacing "a" "b"]
    ∧ (_process_calendar totalCompile none none false ["/a/b/"] []).1
      ≠ [Line.replacing "a" "b", Line.processing none none] := by
  constructor
  · decide
  · decide

/-- C5, amended: on a successful run the output is, in order, exactly
one `Processing events` header line, then one `Replacing` diagnostic
line per parsed rule, then the per-group result lines. -/
theorem claim5_output_order (compile : String → Option Regex)
    (start_date end_date : Option Int) (allday : Bool)
    (strs : List String) (events : List Event) (rules : List (Regex × String))
    (h : (_parse_regexes compile strs).2 = some rules) :
    (_process_calendar compile start_date end_date allday strs events).1
      = Line.processing start_date end_date
          :: ((_parse_regexes compile strs).1
            ++ (sortGroupsDesc (processEvents start_date end_date allday rules events).1).map
                 (fun nd => Line.group nd.1 (_total_hours nd.2)))
    ∧ (_parse_regexes compile strs).1.length = strs.length
    ∧ (∀ l ∈ (_parse_regexes compile strs).1, ∃ a b, l = Line.replacing a b) := by
  have hps := process_calendar_success compile start_date end_date allday strs events rules h
  have hsh := parse_regexes_success_shape compile strs rules h
  refine ⟨?_, hsh.1, hsh.2⟩
  have hfst := congrArg Prod.fst hps
  simpa using hfst


/-- C5 witness: the amended order on a concrete one-rule run. -/
theorem claim5_witness :
    (_parse_regexes totalCompile ["/a/b/"]).2 = some [(litSeq ['a'], "b")]
    ∧ ((_process_calendar totalCompile none none false ["/a/b/"] []).1
        = Line.processing none none
            :: ((_parse_regexes totalCompile ["/a/b/"]).1
              ++ (sortGroupsDesc (processEvents none none false [(litSeq ['a'], "b")] []).1).map
                   (fun nd => Line.group nd.1 (_total_hours nd.2)))
      ∧ (_parse_regexes totalCompile ["/a/b/"]).1.length = (["/a/b/"] : List String).length
      ∧ (∀ l ∈ (_parse_regexes totalCompile ["/a/b/"]).1, ∃ a b, l = Line.replacing a b)) :=
  ⟨by decide,
   claim5_output_order totalCompile none none false ["/a/b/"] [] [(litSeq ['a'], "b")]
     (by decide)⟩

/-- C6, confirmed: when any rule string fails the grammar, or parses
but its compiled pattern is rejected by the external regex engine, rule
parsing aborts: no compiled rule list is produced, the run produces no
group results at all, no group line is printed, and the abort is caused
by an offending rule — either one whose grammar failed, named by the
`Unable to parse regex` diagnostic, or one whose compiled pattern the
engine rejected. -/
theorem claim6_rule_error_aborts (compile : String → Option Regex)
    (strs : List String) (start_date end_date : Option Int) (allday : Bool)
    (events : List Event) (s : String)
    (hmem : s ∈ strs)
    (hbad : parseRuleStr s = none
      ∨ ∃ pat rep flags, parseRuleStr s = some (pat, rep, flags)
          ∧ compile (regex_str pat flags) = none) :
    (_parse_regexes compile strs).2 = none
    ∧ (_process_calendar compile start_date end_date allday strs events).2 = none
    ∧ ((∃ s0 ∈ strs, parseRuleStr s0 = none
          ∧ Line.unableToParse s0
              ∈ (_process_calendar compile start_date end_date allday strs events).1)
        ∨ (∃ s0 ∈ strs, ∃ pat rep flags, parseRuleStr s0 = some (pat, rep, flags)
            ∧ compile (regex_str pat flags) = none))
    ∧ (∀ n hrs, Line.group n hrs
          ∉ (_process_calendar compile start_date end_date allday strs events).1) := by
  have habort := parse_regexes_abort compile strs s hmem hbad
  have hfail := process_calendar_failure compile start_date end_date allday strs events habort
  refine ⟨habort, by rw [hfail], ?_, ?_⟩
  · rcases parse_regexes_error_cause compile strs habort with
      ⟨s0, hs0, hb, hline⟩ | hright
    · left
      exact ⟨s0, hs0, hb, by rw [hfail]; exact List.mem_cons_of_mem _ hline⟩
    · right
      exact hright
  · intro n hrs hmemline
    rw [hfail] at hmemline
    rcases List.mem_cons.mp hmemline with heq | hmemline
    · simp at heq
    · rcases parse_regexes_lines_shape compile strs _ hmemline with ⟨a, b, hab⟩ | ⟨a, hab⟩
      · simp at hab
      · simp at hab

/-- C6 witness, exercising both failure modes: the malformed rule with
a missing final separator (its replacement word is empty) aborts the
run with no group results, and so does a grammatically valid rule whose
pattern the regex engine rejects. -/
theorem claim6_witness :
    ((("/onlyone/" : String) ∈ (["/onlyone/"] : List String)
        ∧ parseRuleStr "/onlyone/" = none)
      ∧ (_parse_regexes totalCompile ["/onlyone/"]).2 = none
      ∧ (_process_calendar totalCompile none none false ["/onlyone/"] []).2 = none)
    ∧ ((("/x/y/" : String) ∈ (["/x/y/"] : List String)
        ∧ parseRuleStr "/x/y/" = some ("x", "y", "")
        ∧ noneCompile (regex_str "x" "") = none)
      ∧ (_parse_regexes noneCompile ["/x/y/"]).2 = none
      ∧ (_process_calendar noneCompile none none false ["/x/y/"] []).2 = none) := by
  have h1 := claim6_rule_error_aborts totalCompile ["/onlyone/"] none none false []
    "/onlyone/" (by decide) (Or.inl (by decide))
  have h2 := claim6_rule_error_aborts noneCompile ["/x/y/"] none none false []
    "/x/y/" (by decide) (Or.inr ⟨"x", "y", "", by decide, rfl⟩)
  exact ⟨⟨⟨by decide, by decide⟩, h1.1, h1.2.1⟩,
         ⟨⟨by decide, by decide, rfl⟩, h2.1, h2.2.1⟩⟩

/-- C7, confirmed: a well-formed rule string parses into its pattern,
replacement and flags; the string handed to the regex compiler is the
pattern with the inline flag group prepended when flags are present and
the pattern unchanged when the flag list is empty (which covers both
the trailing-separator form and the two-separator form), and the stored
replacement text is exactly the replacement word. -/
theorem claim7_compiled_pattern (compile : String → Option Regex)
    (p r f : List Char) (re : Regex)
    (hp : p ≠ []) (hpw : ∀ c ∈ p, wordChar c = true) (hph : ppWsChar p.headI = false)
    (hr : r ≠ []) (hrw : ∀ c ∈ r, wordChar c = true) (hrh : ppWsChar r.headI = false)
    (hf : ∀ c ∈ f, flagChar c = true)
    (hc : compile (regex_str ⟨p⟩ ⟨f⟩) = some re) :
    parseRuleStr ⟨'/' :: p ++ '/' :: r ++ '/' :: f⟩ = some (⟨p⟩, ⟨r⟩, ⟨f⟩)
    ∧ _parse_regexes compile [⟨'/' :: p ++ '/' :: r ++ '/' :: f⟩]
        = ([Line.replacing (regex_str ⟨p⟩ ⟨f⟩) ⟨r⟩], some [(re, ⟨r⟩)])
    ∧ (f = [] → regex_str ⟨p⟩ ⟨f⟩ = ⟨p⟩)
    ∧ (f ≠ [] → (regex_str ⟨p⟩ ⟨f⟩).data = '(' :: '?' :: (f ++ ')' :: p)) := by
  have hparse : parseRuleStr ⟨'/' :: p ++ '/' :: r ++ '/' :: f⟩ = some (⟨p⟩, ⟨r⟩, ⟨f⟩) := by
    simp only [parseRuleStr]
    rw [parseRule_wellformed p r f hp hpw hph hr hrw hrh hf]
    rfl
  refine ⟨hparse, ?_, ?_, ?_⟩
  · simp only [_parse_regexes, hparse]
    rw [hc]
    simp [_parse_regexes]
  · intro hfe
    subst hfe
    rfl
  · intro hfne
    have hne : (⟨f⟩ : String) ≠ "" := by
      intro hcon
      apply hfne
      have hd := congrArg String.data hcon
      simpa using hd
    simp [regex_str, hne, String.data_append]

/-- C7 witness: the rule with pattern `a`, replacement `b` and flag `i`
compiles the inline-flag pattern, and the no-flag form is left as-is. -/
theorem claim7_witness :
    totalCompile (regex_str ⟨['a']⟩ ⟨['i']⟩) = some (litSeq "(?i)a".data)
    ∧ (parseRuleStr ⟨'/' :: ['a'] ++ '/' :: ['b'] ++ '/' :: ['i']⟩
        = some (⟨['a']⟩, ⟨['b']⟩, ⟨['i']⟩)
      ∧ _parse_regexes totalCompile [⟨'/' :: ['a'] ++ '/' :: ['b'] ++ '/' :: ['i']⟩]
          = ([Line.replacing (regex_str ⟨['a']⟩ ⟨['i']⟩) ⟨['b']⟩],
             some [(litSeq "(?i)a".data, ⟨['b']⟩)])
      ∧ ((['i'] : List Char) = [] → regex_str ⟨['a']⟩ ⟨['i']⟩ = ⟨['a']⟩)
      ∧ ((['i'] : List Char) ≠ [] →
          (regex_str ⟨['a']⟩ ⟨['i']⟩).data = '(' :: '?' :: (['i'] ++ ')' :: ['a']))) :=
  ⟨by decide,
   claim7_compiled_pattern totalCompile ['a'] ['b'] ['i'] (litSeq "(?i)a".data)
     (by decide) (by decide) (by decide) (by decide) (by decide) (by decide) (by decide)
     (by decide)⟩

/-- C8, confirmed: on a successful run the group lines are one per
group in non-increasing order of accumulated duration, each carrying
the group's seconds divided by 3600; the printed list of groups is a
permutation of the accumulator, and every included event's resolved
group name appears among the printed groups. -/
theorem claim8_sorted_output (compile : String → Option Regex)
    (start_date end_date : Option Int) (allday : Bool)
    (strs : List String) (events : List Event) (rules : List (Regex × String))
    (h : (_parse_regexes compile strs).2 = some rules) :
    (_process_calendar compile start_date end_date allday strs events).1
      = Line.processing start_date end_date
          :: ((_parse_regexes compile strs).1
            ++ (sortGroupsDesc (processEvents start_date end_date allday rules events).1).map
                 (fun nd => Line.group nd.1 (nd.2 / 3600)))
    ∧ List.Perm (sortGroupsDesc (processEvents start_date end_date allday rules events).1)
        (processEvents start_date end_date allday rules events).1
    ∧ List.Pairwise (fun a b : String × ℚ => b.2 ≤ a.2)
        (sortGroupsDesc (processEvents start_date end_date allday rules events).1)
    ∧ (∀ e ∈ events, skipEvent allday start_date end_date e = false →
        _group e.name rules
          ∈ ((sortGroupsDesc (processEvents start_date end_date allday rules events).1).map
              Prod.fst)) := by
  refine ⟨?_, sortGroupsDesc_perm _, sortGroupsDesc_pairwise _, ?_⟩
  · have hps := process_calendar_success compile start_date end_date allday strs events rules h
    have hfst := congrArg Prod.fst hps
    simpa [_total_hours] using hfst
  · intro e hmem hinc
    have hkey := group_key_mem start_date end_date allday rules events e hmem hinc
    have hperm := (sortGroupsDesc_perm
      (processEvents start_date end_date allday rules events).1).map Prod.fst
    exact hperm.mem_iff.mpr hkey

/-- C8 witness: a concrete one-rule run with one included event prints
its single group. -/
theorem claim8_witness :
    (_parse_regexes totalCompile ["/foo/bar/"]).2 = some fooRules
    ∧ ((_process_calendar totalCompile none none false ["/foo/bar/"] [fooEvent]).1
        = Line.processing none none
            :: ((_parse_regexes totalCompile ["/foo/bar/"]).1
              ++ (sortGroupsDesc (processEvents none none false fooRules [fooEvent]).1).map
                   (fun nd => Line.group nd.1 (nd.2 / 3600)))
      ∧ List.Perm (sortGroupsDesc (processEvents none none false fooRules [fooEvent]).1)
          (processEvents none none false fooRules [fooEvent]).1
      ∧ List.Pairwise (fun a b : String × ℚ => b.2 ≤ a.2)
          (sortGroupsDesc (processEvents none none false fooRules [fooEvent]).1)
      ∧ (∀ e ∈ [fooEvent], skipEvent false none none e = false →
          _group e.name fooRules
            ∈ ((sortGroupsDesc (processEvents none none false fooRules [fooEvent]).1).map
                Prod.fst))) :=
  ⟨by decide,
   claim8_sorted_output totalCompile none none false ["/foo/bar/"] [fooEvent] fooRules
     (by decide)⟩

/-- C9, code bug: the handler on source line 124 catches only
`TypeError`, so the `Not a valid date` argument error is raised exactly
when the date library signals its failure as a `TypeError`; when the
library raises its own parser error — which is what it does for a date
string it cannot parse — the exception propagates uncaught and the
message the claim (and the function's own docstring, which promises an
`ArgumentTypeError` for an invalid date) requires is never produced. -/
theorem claim9_invalid_date (arrowGet : String → ArrowOutcome) (s : String) :
    (arrowGet s = ArrowOutcome.parserError →
      _valid_date arrowGet s = DateResult.uncaughtParserError
        ∧ ∀ msg, _valid_date arrowGet s ≠ DateResult.argumentTypeError msg)
    ∧ (arrowGet s = ArrowOutcome.typeError →
      _valid_date arrowGet s
        = DateResult.argumentTypeError
            ("Not a valid date: " ++ squote ++ s ++ squote ++ ".")) := by
  constructor
  · intro h
    constructor
    · simp [_valid_date, h]
    · intro msg
      simp [_valid_date, h]
  · intro h
    simp [_valid_date, h]

/-- C9 witness: at the failing input — a string the stubbed library
cannot parse, for which it raises its parser error — the validator
propagates the exception and emits no `Not a valid date` message. -/
theorem claim9_witness :
    arrowGetStub "not-a-date" = ArrowOutcome.parserError
    ∧ (_valid_date arrowGetStub "not-a-date" = DateResult.uncaughtParserError
      ∧ ∀ msg, _valid_date arrowGetStub "not-a-date" ≠ DateResult.argumentTypeError msg) :=
  ⟨by decide, (claim9_invalid_date arrowGetStub "not-a-date").1 (by decide)⟩

/-- C10, confirmed: because the all-day option is declared with a
boolean type converter, any supplied non-empty value string — including
the strings spelling False, false and 0 — converts to true, so all-day
events then pass the all-day test and are filtered only by the date
boundaries; the option is false exactly when it is omitted (the
default) or given the empty string, and then an all-day event is always
skipped. -/
theorem claim10_allday (start_date end_date : Option Int) :
    (∀ v : String, v ≠ "" → alldayArg (some v) = true)
    ∧ alldayArg (some "False") = true
    ∧ alldayArg (some "false") = true
    ∧ alldayArg (some "0") = true
    ∧ (∀ o : Option String, alldayArg o = false ↔ o = none ∨ o = some "")
    ∧ (∀ e : Event, e.all_day = true →
        skipEvent (alldayArg (some "False")) start_date end_date e
          = ((match start_date with
              | some s => decide (e.beginTime < s)
              | none => false)
             || (match end_date with
                 | some t => decide (e.endTime > t)
                 | none => false)))
    ∧ (∀ e : Event, e.all_day = true →
        skipEvent (alldayArg none) start_date end_date e = true) := by
  refine ⟨?_, by decide, by decide, by decide, ?_, ?_, ?_⟩
  · intro v hv
    simp [alldayArg, pyBool, hv]
  · intro o
    cases o with
    | none => simp [alldayArg]
    | some v =>
      simp only [alldayArg, pyBool]
      constructor
      · intro hv
        right
        simpa using hv
      · intro hv
        rcases hv with hv | hv
        · cases hv
        · injection hv with hv
          simp [hv]
  · intro e he
    have hb : alldayArg (some "False") = true := by decide
    rw [hb]
    simp [skipEvent, he]
  · intro e he
    simp [skipEvent, alldayArg, he]

/-- C10 witness: the string spelling False converts to true. -/
theorem claim10_witness :
    ("False" : String) ≠ "" ∧ alldayArg (some "False") = true :=
  ⟨by decide, (claim10_allday none none).1 "False" (by decide)⟩

end CalendarAnalyzer
